import Mathlib

/-!
Verification of the binaural-beats session engine.

This file gives a shallow embedding, over exact rationals (and reals where
the source uses trigonometric functions), of the core algorithms of the
repository:

* the frequency-envelope interpolator (SessionManager.interpolateFrequency),
* the session clock (seek / pause / resume / tick elapsed-time accounting),
* the phase state machine (SessionManager.updatePhase and the tick loop),
* the binaural tone engine (BinauralEngine.createPair / rampBeatFrequency),
* the isochronic pulse scheduler (IsochronicEngine.schedulePulses),
* the ambient decoded-buffer cache (AmbientEngine.fetchBuffer),
* the narration cursor (VoiceCueEngine.tick / seek).

Wall-clock times are in milliseconds, session times in seconds, exactly as
in the source.  Millisecond timestamps and second offsets are modelled as
rationals.
-/

/-- A keyframe of the frequency envelope: `{time: seconds, beatFreq: Hz}`. -/
structure FrequencyPoint where
  time : ℚ
  beatFreq : ℚ
deriving DecidableEq

/-- The bracketing-keyframe search loop of `SessionManager.interpolateFrequency`
(lines 547-553): the first adjacent pair `(env[i], env[i+1])` with
`env[i].time ≤ time < env[i+1].time`, defaulting to `dflt` (which the caller
sets to `(env[0], env[env.length-1])`) when no pair matches. -/
def findBracket : List FrequencyPoint → ℚ → FrequencyPoint × FrequencyPoint →
    FrequencyPoint × FrequencyPoint
  | a :: b :: rest, time, dflt =>
      if time ≥ a.time ∧ time < b.time then (a, b)
      else findBracket (b :: rest) time dflt
  | _, _, dflt => dflt

/-- The final segment evaluation of `interpolateFrequency` (lines 555-558):
zero-length segments return `prev.beatFreq`, otherwise linear interpolation. -/
def interpSegment (prev next : FrequencyPoint) (time : ℚ) : ℚ :=
  let segDur := next.time - prev.time
  if segDur = 0 then prev.beatFreq
  else prev.beatFreq + (next.beatFreq - prev.beatFreq) * ((time - prev.time) / segDur)

/-- `SessionManager.interpolateFrequency` (lines 535-559).  The `!this.preset`
and empty-envelope guards both return the default frequency 10. -/
def interpolateFrequency (env : List FrequencyPoint) (time : ℚ) : ℚ :=
  match env with
  | [] => 10
  | [p] => p.beatFreq
  | p0 :: p1 :: rest =>
      let last := (p1 :: rest).getLast (List.cons_ne_nil p1 rest)
      if time ≤ p0.time then p0.beatFreq
      else if time ≥ last.time then last.beatFreq
      else
        let pn := findBracket (p0 :: p1 :: rest) time (p0, last)
        interpSegment pn.1 pn.2 time

/-- Times are strictly increasing along the envelope. -/
def EnvSorted (env : List FrequencyPoint) : Prop :=
  env.Chain' (fun a b => a.time < b.time)

instance : DecidablePred EnvSorted := fun env =>
  inferInstanceAs (Decidable (List.Chain' _ env))

/-- The example envelope of the spec's testable-properties section. -/
def exampleEnv : List FrequencyPoint :=
  [⟨0, 8⟩, ⟨60, 8⟩, ⟨120, 4⟩]

-- Helper lemmas about sorted envelopes ---------------------------------------

theorem envSorted_get_lt (env : List FrequencyPoint) (h : EnvSorted env)
    (i j : ℕ) (hij : i < j) (hj : j < env.length) :
    (env.get ⟨i, lt_trans hij hj⟩).time < (env.get ⟨j, hj⟩).time := by
  have := List.chain'_iff_get.mp h
  -- chain gives adjacent strict increase; lift to arbitrary i < j
  clear h
  induction j with
  | zero => omega
  | succ k ih =>
      rcases Nat.lt_succ_iff_lt_or_eq.mp hij with hlt | heq
      · exact lt_trans (ih hlt (by omega)) (this k (by omega))
      · subst heq; exact this i (by omega)

theorem envSorted_get_le (env : List FrequencyPoint) (h : EnvSorted env)
    (i j : ℕ) (hij : i ≤ j) (hj : j < env.length) :
    (env.get ⟨i, lt_of_le_of_lt hij hj⟩).time ≤ (env.get ⟨j, hj⟩).time := by
  rcases lt_or_eq_of_le hij with hlt | heq
  · exact le_of_lt (envSorted_get_lt env h i j hlt hj)
  · subst heq; exact le_refl _

theorem envSorted_tail (a : FrequencyPoint) (l : List FrequencyPoint)
    (h : EnvSorted (a :: l)) : EnvSorted l :=
  (List.chain'_cons'.mp h).2

/-- The bracket search finds exactly the pair around `t` when one exists. -/
theorem findBracket_spec (env : List FrequencyPoint) (t : ℚ)
    (dflt : FrequencyPoint × FrequencyPoint) (i : ℕ)
    (hs : EnvSorted env) (hi : i + 1 < env.length)
    (h1 : (env.get ⟨i, by omega⟩).time ≤ t)
    (h2 : t < (env.get ⟨i + 1, hi⟩).time) :
    findBracket env t dflt = (env.get ⟨i, by omega⟩, env.get ⟨i + 1, hi⟩) := by
  induction env generalizing i with
  | nil => simp at hi
  | cons a l ih =>
      match l, hi with
      | b :: rest, hi =>
        cases i with
        | zero =>
            simp only [List.get] at h1 h2 ⊢
            rw [findBracket, if_pos ⟨h1, h2⟩]
        | succ k =>
            have hk1 : k + 1 < (b :: rest).length := by
              simp at hi ⊢; omega
            have hb : (b :: rest).get ⟨0, by simp⟩ = b := rfl
            -- head condition fails: b.time ≤ env[k+1].time ≤ t
            have hble : ((b :: rest).get ⟨0, by simp⟩).time ≤
                ((b :: rest).get ⟨k, by omega⟩).time :=
              envSorted_get_le _ (envSorted_tail a _ hs) 0 k (by omega) (by omega)
            have hnotlt : ¬ (t ≥ a.time ∧ t < b.time) := by
              rintro ⟨-, hbt⟩
              have : b.time ≤ t := le_trans (by simpa [hb] using hble) h1
              exact absurd hbt (not_lt.mpr this)
            rw [findBracket, if_neg hnotlt]
            exact ih k (envSorted_tail a _ hs) hk1 h1 h2

theorem interpolateFrequency_boundary_low (p0 p1 : FrequencyPoint)
    (rest : List FrequencyPoint) (t : ℚ) (h : t ≤ p0.time) :
    interpolateFrequency (p0 :: p1 :: rest) t = p0.beatFreq := by
  simp only [interpolateFrequency]
  rw [if_pos h]

theorem envSorted_head_lt_getLast (p : FrequencyPoint) (l : List FrequencyPoint)
    (hne : l ≠ []) (hs : EnvSorted (p :: l)) :
    p.time < (l.getLast hne).time := by
  induction l generalizing p with
  | nil => exact absurd rfl hne
  | cons b m ih =>
      have hpb : p.time < b.time := (List.chain'_cons.mp hs).1
      have hbm : EnvSorted (b :: m) := (List.chain'_cons.mp hs).2
      cases m with
      | nil => simpa [List.getLast] using hpb
      | cons c m' =>
          rw [List.getLast_cons (List.cons_ne_nil c m')]
          exact lt_trans hpb (ih b (List.cons_ne_nil c m') hbm)

theorem interpolateFrequency_boundary_high (p0 p1 : FrequencyPoint)
    (rest : List FrequencyPoint) (t : ℚ)
    (hs : EnvSorted (p0 :: p1 :: rest))
    (h : ((p1 :: rest).getLast (List.cons_ne_nil p1 rest)).time ≤ t) :
    interpolateFrequency (p0 :: p1 :: rest) t =
      ((p1 :: rest).getLast (List.cons_ne_nil p1 rest)).beatFreq := by
  have hfirstlast : p0.time <
      ((p1 :: rest).getLast (List.cons_ne_nil p1 rest)).time :=
    envSorted_head_lt_getLast p0 (p1 :: rest) (List.cons_ne_nil p1 rest) hs
  have hnot : ¬ (t ≤ p0.time) := not_le.mpr (lt_of_lt_of_le hfirstlast h)
  simp only [interpolateFrequency]
  rw [if_neg hnot, if_pos h]

theorem interpolateFrequency_bracket (p0 p1 : FrequencyPoint)
    (rest : List FrequencyPoint) (t : ℚ) (i : ℕ)
    (hs : EnvSorted (p0 :: p1 :: rest))
    (hi : i + 1 < (p0 :: p1 :: rest).length)
    (h1 : ((p0 :: p1 :: rest).get ⟨i, by omega⟩).time ≤ t)
    (h2 : t < ((p0 :: p1 :: rest).get ⟨i + 1, hi⟩).time) :
    interpolateFrequency (p0 :: p1 :: rest) t =
      ((p0 :: p1 :: rest).get ⟨i, by omega⟩).beatFreq
        + (((p0 :: p1 :: rest).get ⟨i + 1, hi⟩).beatFreq
            - ((p0 :: p1 :: rest).get ⟨i, by omega⟩).beatFreq)
          * ((t - ((p0 :: p1 :: rest).get ⟨i, by omega⟩).time)
              / (((p0 :: p1 :: rest).get ⟨i + 1, hi⟩).time
                  - ((p0 :: p1 :: rest).get ⟨i, by omega⟩).time)) := by
  set env := p0 :: p1 :: rest with henv
  have hseg : ((env.get ⟨i, by omega⟩).time : ℚ) <
      (env.get ⟨i + 1, hi⟩).time :=
    envSorted_get_lt env hs i (i + 1) (by omega) hi
  by_cases hA : t ≤ p0.time
  · -- only possible when i = 0 and t = p0.time; both sides are p0.beatFreq
    have hp0 : env.get ⟨0, by simp [henv]⟩ = p0 := rfl
    have hi0 : i = 0 := by
      by_contra hne
      have h01 : (env.get ⟨0, by simp [henv]⟩).time < (env.get ⟨i, by omega⟩).time :=
        envSorted_get_lt env hs 0 i (by omega) (by omega)
      rw [hp0] at h01
      exact absurd (le_trans h1 hA) (not_le.mpr h01)
    subst hi0
    have ht : t = p0.time := le_antisymm hA (by simpa [hp0] using h1)
    rw [interpolateFrequency_boundary_low p0 p1 rest t hA]
    rw [hp0, ht]
    rw [sub_self, zero_div, mul_zero, add_zero]
  · -- interior: the bracket search finds (env[i], env[i+1])
    push_neg at hA
    have hlastget : env.getLast (List.cons_ne_nil p0 (p1 :: rest)) =
        env.get ⟨env.length - 1, by simp [henv]⟩ := by
      rw [List.getLast_eq_getElem, List.get_eq_getElem]
    have hlastcons : (p1 :: rest).getLast (List.cons_ne_nil p1 rest) =
        env.getLast (List.cons_ne_nil p0 (p1 :: rest)) :=
      (List.getLast_cons (List.cons_ne_nil p1 rest)).symm
    have hlt_last : t < ((p1 :: rest).getLast (List.cons_ne_nil p1 rest)).time := by
      have hle : (env.get ⟨i + 1, hi⟩).time ≤
          (env.get ⟨env.length - 1, by simp [henv]⟩).time := by
        apply envSorted_get_le env hs (i + 1) (env.length - 1) (by omega) (by simp [henv])
      rw [hlastcons, hlastget]
      exact lt_of_lt_of_le h2 hle
    have hnotlow : ¬ (t ≤ p0.time) := not_le.mpr hA
    have hnothigh : ¬ (t ≥ ((p1 :: rest).getLast (List.cons_ne_nil p1 rest)).time) :=
      not_le.mpr hlt_last
    have hfb := findBracket_spec env t
      (p0, (p1 :: rest).getLast (List.cons_ne_nil p1 rest)) i hs hi h1 h2
    simp only [interpolateFrequency]
    rw [if_neg hnotlow, if_neg hnothigh, hfb]
    simp only [interpSegment]
    rw [if_neg (by exact sub_ne_zero.mpr (ne_of_gt hseg))]

theorem exampleEnv_sorted : EnvSorted exampleEnv := by
  show List.Chain' (fun a b => a.time < b.time) exampleEnv
  refine List.chain'_cons.mpr ⟨by norm_num, List.chain'_cons.mpr ⟨by norm_num, ?_⟩⟩
  exact List.chain'_singleton _

theorem exampleEnv_at_90 : interpolateFrequency exampleEnv 90 = 6 := by
  have h := interpolateFrequency_bracket ⟨0, 8⟩ ⟨60, 8⟩ [⟨120, 4⟩] 90 1
    exampleEnv_sorted (by norm_num) (show (60 : ℚ) ≤ 90 by norm_num)
    (show (90 : ℚ) < 120 by norm_num)
  have h' : interpolateFrequency exampleEnv 90 =
      8 + (4 - 8) * ((90 - 60) / (120 - 60)) := h
  rw [h']; norm_num

theorem exampleEnv_at_0 : interpolateFrequency exampleEnv 0 = 8 := by
  have h := interpolateFrequency_boundary_low ⟨0, 8⟩ ⟨60, 8⟩ [⟨120, 4⟩] 0
    (le_refl _)
  exact h

theorem exampleEnv_at_200 : interpolateFrequency exampleEnv 200 = 4 := by
  have h := interpolateFrequency_boundary_high ⟨0, 8⟩ ⟨60, 8⟩ [⟨120, 4⟩] 200
    exampleEnv_sorted (show (120 : ℚ) ≤ 200 by norm_num)
  exact h

/-- C1: `interpolateFrequency` returns the first keyframe's frequency for
`t ≤ first.time`, the last keyframe's for `t ≥ last.time`, the linear
interpolation `prev.beatFreq + (next.beatFreq - prev.beatFreq) *
(t - prev.time)/(next.time - prev.time)` between bracketing keyframes,
`prev.beatFreq` on zero-length segments, the default 10 on an empty envelope,
the constant frequency on a single-point envelope; and on the envelope
`[{0,8},{60,8},{120,4}]` it yields 6 at t=90, 8 at t=0 and 4 at t=200. -/
theorem C1_interpolateFrequency_correct :
    (∀ t, interpolateFrequency [] t = 10)
    ∧ (∀ p t, interpolateFrequency [p] t = p.beatFreq)
    ∧ (∀ p0 p1 rest t, t ≤ p0.time →
        interpolateFrequency (p0 :: p1 :: rest) t = p0.beatFreq)
    ∧ (∀ p0 p1 rest t, EnvSorted (p0 :: p1 :: rest) →
        ((p1 :: rest).getLast (List.cons_ne_nil p1 rest)).time ≤ t →
        interpolateFrequency (p0 :: p1 :: rest) t =
          ((p1 :: rest).getLast (List.cons_ne_nil p1 rest)).beatFreq)
    ∧ (∀ p0 p1 rest t i, ∀ hs : EnvSorted (p0 :: p1 :: rest),
        ∀ hi : i + 1 < (p0 :: p1 :: rest).length,
        ((p0 :: p1 :: rest).get ⟨i, by omega⟩).time ≤ t →
        t < ((p0 :: p1 :: rest).get ⟨i + 1, hi⟩).time →
        interpolateFrequency (p0 :: p1 :: rest) t =
          ((p0 :: p1 :: rest).get ⟨i, by omega⟩).beatFreq
            + (((p0 :: p1 :: rest).get ⟨i + 1, hi⟩).beatFreq
                - ((p0 :: p1 :: rest).get ⟨i, by omega⟩).beatFreq)
              * ((t - ((p0 :: p1 :: rest).get ⟨i, by omega⟩).time)
                  / (((p0 :: p1 :: rest).get ⟨i + 1, hi⟩).time
                      - ((p0 :: p1 :: rest).get ⟨i, by omega⟩).time)))
    ∧ (∀ prev next t, next.time = prev.time →
        interpSegment prev next t = prev.beatFreq)
    ∧ interpolateFrequency exampleEnv 90 = 6
    ∧ interpolateFrequency exampleEnv 0 = 8
    ∧ interpolateFrequency exampleEnv 200 = 4 := by
  refine ⟨fun t => rfl, fun p t => rfl, ?_, ?_, ?_, ?_,
    exampleEnv_at_90, exampleEnv_at_0, exampleEnv_at_200⟩
  · exact fun p0 p1 rest t h => interpolateFrequency_boundary_low p0 p1 rest t h
  · exact fun p0 p1 rest t hs h =>
      interpolateFrequency_boundary_high p0 p1 rest t hs h
  · exact fun p0 p1 rest t i hs hi h1 h2 =>
      interpolateFrequency_bracket p0 p1 rest t i hs hi h1 h2
  · intro prev next t h
    simp only [interpSegment]
    rw [if_pos (by rw [h, sub_self])]

/-- Witness: the bracketing clause of C1 applied to the concrete envelope
`[{0,8},{60,8},{120,4}]` at t = 90 with bracket index 1 yields 6. -/
theorem C1_interpolateFrequency_witness :
    interpolateFrequency exampleEnv 90 = 6 := by
  have h := C1_interpolateFrequency_correct.2.2.2.2.1
    ⟨0, 8⟩ ⟨60, 8⟩ [⟨120, 4⟩] 90 1 exampleEnv_sorted (by norm_num)
    (show (60 : ℚ) ≤ 90 by norm_num) (show (90 : ℚ) < 120 by norm_num)
  have h' : interpolateFrequency exampleEnv 90 =
      8 + (4 - 8) * ((90 - 60) / (120 - 60)) := h
  rw [h']; norm_num

/-! ## Session manager state: clock, phases, seek/pause/resume/tick

Model of the mutable fields of `SessionManager` (SessionManager.ts) that the
clock and phase machinery read and write.  Wall-clock instants (`now`,
`startTime`, `pausedAt`) are in milliseconds as produced by
`performance.now()`; `elapsed` values are in seconds. -/

/-- The phase labels `idle | induction | main | return | complete` of the
source (`main` and `return` are spelled `mainPhase` / `returnPhase`). -/
inductive SessionPhase where
  | idle
  | induction
  | mainPhase
  | returnPhase
  | complete
deriving DecidableEq

/-- The parts of a `SessionPreset` that the clock and phase logic read. -/
structure SessionPreset where
  duration : ℚ
  frequencyEnvelope : List FrequencyPoint
  hasReturnPhase : Bool
deriving DecidableEq

/-- The clock/phase fields of `SessionManager`: `startTime`, `pausedAt`
(0 when running), `pauseOffset`, `_phase` and the cached `_elapsed` that the
`elapsed` getter returns. -/
structure SMState where
  preset : Option SessionPreset
  startTime : ℚ
  pausedAt : ℚ
  pauseOffset : ℚ
  phase : SessionPhase
  elapsed : ℚ
deriving DecidableEq

/-- `env[1].time`, the induction-phase end used by `updatePhase` (line 522). -/
def inductionEndOf (preset : SessionPreset) : ℚ :=
  (preset.frequencyEnvelope.getD 1 ⟨0, 0⟩).time

/-- `returnStart` of `updatePhase` (line 523): the second-to-last keyframe
time when the envelope has at least 3 points, else `0.85 × duration`. -/
def returnStartOf (preset : SessionPreset) : ℚ :=
  if 3 ≤ preset.frequencyEnvelope.length then
    (preset.frequencyEnvelope.getD (preset.frequencyEnvelope.length - 2) ⟨0, 0⟩).time
  else preset.duration * 0.85

/-- The phase decision of `SessionManager.updatePhase` (lines 511-532) as a
function of the preset and the current `_elapsed` value `t`. -/
def updatePhaseCalc (preset : SessionPreset) (t : ℚ) : SessionPhase :=
  if preset.frequencyEnvelope.length < 2 then SessionPhase.mainPhase
  else if t < inductionEndOf preset then SessionPhase.induction
  else if preset.hasReturnPhase = true ∧ returnStartOf preset < t then
    SessionPhase.returnPhase
  else SessionPhase.mainPhase

/-- `SessionManager.updatePhase`: writes the phase computed from `_elapsed`;
no-op when no preset is loaded. -/
def updatePhase (s : SMState) : SMState :=
  match s.preset with
  | none => s
  | some preset => { s with phase := updatePhaseCalc preset s.elapsed }

/-- `SessionManager.completeSession` (lines 481-509): its only state-field
write is `_phase = 'complete'` (the rest is audio teardown and callbacks). -/
def completeSessionOp (s : SMState) : SMState :=
  { s with phase := SessionPhase.complete }

/-- The on-demand elapsed computation `(now - startTime - pauseOffset)/1000`
used by `tick` (line 413) and `resume` (line 207). -/
def elapsedComp (s : SMState) (now : ℚ) : ℚ :=
  (now - s.startTime - s.pauseOffset) / 1000

/-- The state transition of `SessionManager.tick` (lines 408-479): recompute
`_elapsed`, complete the session once it reaches the duration, otherwise
update the phase.  (Audio-side effects and the emitted callback are modelled
separately.) -/
def tickStep (s : SMState) (now : ℚ) : SMState :=
  match s.preset with
  | none => s
  | some preset =>
      if 0 < s.pausedAt then s
      else
        let e := (now - s.startTime - s.pauseOffset) / 1000
        let s1 := { s with elapsed := e }
        if preset.duration ≤ e then completeSessionOp s1 else updatePhase s1

/-- `SessionManager.seek` (lines 309-348): clamp the target to
`[0, duration - 0.1]`, rewrite `pauseOffset` against `pausedAt` (if paused)
or `now` so that the clock reads the clamped time, cache it in `_elapsed`,
and re-derive the phase. -/
def seekOp (s : SMState) (targetTime now : ℚ) : SMState :=
  match s.preset with
  | none => s
  | some preset =>
      let clampedTime := max 0 (min targetTime (preset.duration - 0.1))
      let ref := if 0 < s.pausedAt then s.pausedAt else now
      updatePhase { s with
        pauseOffset := ref - s.startTime - clampedTime * 1000,
        elapsed := clampedTime }

/-- `SessionManager.pause` (lines 182-199): record `pausedAt = now` unless
already paused, idle, or complete. -/
def pauseOp (s : SMState) (now : ℚ) : SMState :=
  if 0 < s.pausedAt ∨ s.phase = SessionPhase.idle ∨ s.phase = SessionPhase.complete
  then s
  else { s with pausedAt := now }

/-- `SessionManager.resume` (lines 201-234): accumulate the pause interval
into `pauseOffset`, clear `pausedAt`, and complete immediately when the
recomputed elapsed time already reached the duration. -/
def resumeOp (s : SMState) (now : ℚ) : SMState :=
  if s.pausedAt = 0 then s
  else
    let s1 := { s with pauseOffset := s.pauseOffset + (now - s.pausedAt), pausedAt := 0 }
    match s1.preset with
    | some preset =>
        if preset.duration ≤ (now - s1.startTime - s1.pauseOffset) / 1000 then
          completeSessionOp s1
        else s1
    | none => s1

/-- The phase visible after a tick at elapsed time `t`: `complete` once
`t ≥ duration` (tick line 415), else the `updatePhase` decision. -/
def tickPhaseAt (preset : SessionPreset) (t : ℚ) : SessionPhase :=
  if preset.duration ≤ t then SessionPhase.complete else updatePhaseCalc preset t

/-- Position of a phase in the forward order `idle → induction → main →
return → complete`. -/
def phaseRank : SessionPhase → ℕ
  | SessionPhase.idle => 0
  | SessionPhase.induction => 1
  | SessionPhase.mainPhase => 2
  | SessionPhase.returnPhase => 3
  | SessionPhase.complete => 4

@[simp] theorem updatePhase_preset (s : SMState) : (updatePhase s).preset = s.preset := by
  cases hs : s.preset <;> simp [updatePhase, hs]

@[simp] theorem updatePhase_elapsed (s : SMState) : (updatePhase s).elapsed = s.elapsed := by
  cases hs : s.preset <;> simp [updatePhase, hs]

@[simp] theorem updatePhase_startTime (s : SMState) :
    (updatePhase s).startTime = s.startTime := by
  cases hs : s.preset <;> simp [updatePhase, hs]

@[simp] theorem updatePhase_pausedAt (s : SMState) :
    (updatePhase s).pausedAt = s.pausedAt := by
  cases hs : s.preset <;> simp [updatePhase, hs]

@[simp] theorem updatePhase_pauseOffset (s : SMState) :
    (updatePhase s).pauseOffset = s.pauseOffset := by
  cases hs : s.preset <;> simp [updatePhase, hs]

@[simp] theorem completeSessionOp_elapsed (s : SMState) :
    (completeSessionOp s).elapsed = s.elapsed := rfl

@[simp] theorem completeSessionOp_pauseOffset (s : SMState) :
    (completeSessionOp s).pauseOffset = s.pauseOffset := rfl

@[simp] theorem completeSessionOp_startTime (s : SMState) :
    (completeSessionOp s).startTime = s.startTime := rfl

@[simp] theorem completeSessionOp_phase (s : SMState) :
    (completeSessionOp s).phase = SessionPhase.complete := rfl

theorem seekOp_fields (s : SMState) (preset : SessionPreset) (target now : ℚ)
    (hp : s.preset = some preset) :
    (seekOp s target now).elapsed = max 0 (min target (preset.duration - 0.1))
    ∧ (seekOp s target now).startTime = s.startTime
    ∧ (seekOp s target now).pausedAt = s.pausedAt
    ∧ (seekOp s target now).preset = s.preset
    ∧ (seekOp s target now).pauseOffset =
        (if 0 < s.pausedAt then s.pausedAt else now) - s.startTime
          - max 0 (min target (preset.duration - 0.1)) * 1000
    ∧ (seekOp s target now).phase =
        updatePhaseCalc preset (max 0 (min target (preset.duration - 0.1))) := by
  simp only [seekOp, hp]
  refine ⟨by simp, by simp, by simp, by simp [hp], by simp, ?_⟩
  simp [updatePhase, hp]

/-- C2 (amended): for a loaded session of duration `d`, `seek(t)` with
`t ∈ [0, d - 0.1]` makes the elapsed getter read exactly `t`, leaves
`startTime` (and `pausedAt`) untouched, makes the on-demand clock computed
against the reference instant (`pausedAt` when paused, else `now`) read `t`,
and a repeated `seek(t)` still reads `t`.  (Targets in `(d - 0.1, d)` are
clamped to `d - 0.1`, refuting the claim's full `[0, d)` range.) -/
theorem C2_seek_elapsed_amended (s : SMState) (preset : SessionPreset)
    (target now now2 : ℚ) (hp : s.preset = some preset)
    (h0 : 0 ≤ target) (h1 : target ≤ preset.duration - 0.1) :
    (seekOp s target now).elapsed = target
    ∧ (seekOp s target now).startTime = s.startTime
    ∧ (seekOp s target now).pausedAt = s.pausedAt
    ∧ ((if 0 < s.pausedAt then s.pausedAt else now) - s.startTime
        - (seekOp s target now).pauseOffset) / 1000 = target
    ∧ (seekOp (seekOp s target now) target now2).elapsed = target := by
  have hclamp : max 0 (min target (preset.duration - 0.1)) = target := by
    rw [min_eq_left h1, max_eq_right h0]
  obtain ⟨he, hst, hpa, hpre, hpo, -⟩ := seekOp_fields s preset target now hp
  have hpre2 : (seekOp s target now).preset = some preset := by rw [hpre, hp]
  obtain ⟨he2, -, -, -, -, -⟩ :=
    seekOp_fields (seekOp s target now) preset target now2 hpre2
  refine ⟨by rw [he, hclamp], hst, hpa, ?_, by rw [he2, hclamp]⟩
  rw [hpo, hclamp]
  ring

/-- A 100-second session used for concrete counterexamples. -/
def cexPreset : SessionPreset :=
  { duration := 100, frequencyEnvelope := [⟨0, 8⟩, ⟨60, 8⟩, ⟨100, 4⟩],
    hasReturnPhase := false }

/-- A running state of that session. -/
def cexState : SMState :=
  { preset := some cexPreset, startTime := 0, pausedAt := 0, pauseOffset := 0,
    phase := SessionPhase.mainPhase, elapsed := 50 }

/-- C2 counterexample: seeking to `t = 99.95 ∈ [0, duration)` of a 100-second
session leaves the elapsed getter at `99.9`, not `t`: `seek` clamps to
`duration - 0.1`, so `seek(t); elapsed() == t` fails on `(d - 0.1, d)`. -/
theorem C2_seek_counterexample :
    (0 : ℚ) ≤ 1999 / 20 ∧ (1999 / 20 : ℚ) < cexPreset.duration
    ∧ (seekOp cexState (1999 / 20) 200000).elapsed ≠ 1999 / 20
    ∧ (seekOp cexState (1999 / 20) 200000).elapsed = 999 / 10 := by
  have h := (seekOp_fields cexState cexPreset (1999 / 20) 200000 rfl).1
  have hd : cexPreset.duration = 100 := rfl
  rw [hd] at h ⊢
  have hmin : min (1999 / 20 : ℚ) (100 - 0.1) = 999 / 10 := by
    rw [min_eq_right (by norm_num)]
    norm_num
  rw [hmin, max_eq_right (by norm_num)] at h
  exact ⟨by norm_num, by norm_num, by rw [h]; norm_num, h⟩

/-- Witness for the amended C2 at a concrete state: `seek(30)` on the
100-second session reads exactly 30, with `startTime` untouched. -/
theorem C2_seek_elapsed_witness :
    (seekOp cexState 30 200000).elapsed = 30
    ∧ (seekOp cexState 30 200000).startTime = 0
    ∧ (seekOp (seekOp cexState 30 200000) 30 250000).elapsed = 30 := by
  have h := C2_seek_elapsed_amended cexState cexPreset 30 200000 250000 rfl
    (by norm_num) (by norm_num [cexPreset])
  exact ⟨h.1, by rw [h.2.1]; rfl, h.2.2.2.2⟩

theorem updatePhaseCalc_ne_complete (preset : SessionPreset) (t : ℚ) :
    updatePhaseCalc preset t ≠ SessionPhase.complete := by
  unfold updatePhaseCalc
  split_ifs <;> simp

/-- The session state used as the C5 counterexample: the 100-second session
has completed (phase is `complete`, clock past the duration, not paused). -/
def completeState : SMState :=
  { preset := some cexPreset, startTime := 0, pausedAt := 0, pauseOffset := 0,
    phase := SessionPhase.complete, elapsed := 100 }

/-- C5 counterexample: from the completed session, `seek(70)` recomputes the
phase via `updatePhase` (which has no guard for `complete`) and moves it to
`main` — an operation other than `start()` does leave `complete`. -/
theorem C5_complete_counterexample :
    completeState.phase = SessionPhase.complete
    ∧ (seekOp completeState 70 200000).phase = SessionPhase.mainPhase
    ∧ (seekOp completeState 70 200000).phase ≠ SessionPhase.complete := by
  have h := (seekOp_fields completeState cexPreset 70 200000 rfl).2.2.2.2.2
  have hclamp : max 0 (min (70 : ℚ) (cexPreset.duration - 0.1)) = 70 := by
    have hd : cexPreset.duration = 100 := rfl
    rw [hd, min_eq_left (by norm_num), max_eq_right (by norm_num)]
  rw [hclamp] at h
  have hcalc : updatePhaseCalc cexPreset 70 = SessionPhase.mainPhase := by
    unfold updatePhaseCalc
    rw [if_neg (by norm_num [cexPreset])]
    rw [if_neg (by
      show ¬ (70 : ℚ) < inductionEndOf cexPreset
      have : inductionEndOf cexPreset = 60 := rfl
      rw [this]; norm_num)]
    rw [if_neg (by
      rintro ⟨hfalse, -⟩
      have : cexPreset.hasReturnPhase = false := rfl
      rw [this] at hfalse
      exact Bool.false_ne_true hfalse)]
  refine ⟨rfl, by rw [h, hcalc], by rw [h, hcalc]; simp⟩

/-- C5 (amended): once the phase is `complete` (and the session is not
paused, the only reachable combination), `pause` and `resume` are no-ops and
a `tick` whose recomputed elapsed time is at or past the duration keeps the
phase `complete`; but any `seek` rewrites the phase through `updatePhase`,
which never yields `complete`, so `seek` always exits the terminal phase. -/
theorem C5_complete_terminal_amended (s : SMState) (preset : SessionPreset)
    (now : ℚ) (hp : s.preset = some preset)
    (hphase : s.phase = SessionPhase.complete) (hpause : s.pausedAt = 0) :
    pauseOp s now = s
    ∧ resumeOp s now = s
    ∧ (preset.duration ≤ elapsedComp s now →
        (tickStep s now).phase = SessionPhase.complete)
    ∧ ∀ target tnow, (seekOp s target tnow).phase ≠ SessionPhase.complete := by
  refine ⟨?_, ?_, ?_, ?_⟩
  · simp [pauseOp, hphase]
  · simp [resumeOp, hpause]
  · intro hdur
    simp only [tickStep, hp, hpause]
    rw [if_neg (by norm_num)]
    rw [if_pos (by exact hdur)]
    rfl
  · intro target tnow
    have h := (seekOp_fields s preset target tnow hp).2.2.2.2.2
    rw [h]
    exact updatePhaseCalc_ne_complete preset _

/-- Witness for the amended C5 at the concrete completed state. -/
theorem C5_complete_terminal_witness :
    pauseOp completeState 200000 = completeState
    ∧ resumeOp completeState 200000 = completeState
    ∧ (seekOp completeState 70 200001).phase ≠ SessionPhase.complete := by
  have h := C5_complete_terminal_amended completeState cexPreset 200000 rfl rfl rfl
  exact ⟨h.1, h.2.1, h.2.2.2 70 200001⟩

/-- C6: pausing at instant `tp` and resuming at `tr` adds exactly the pause
interval `tr - tp` to `pauseOffset`, so the on-demand clock reads the same
value right after `resume` (at `tr`) as right before `pause` (at `tp`), and
the cached elapsed getter is untouched by the pause/resume pair. -/
theorem C6_pause_resume_invariant (s : SMState) (tp tr : ℚ)
    (hrun : s.pausedAt = 0) (hidle : s.phase ≠ SessionPhase.idle)
    (hcomp : s.phase ≠ SessionPhase.complete) (htp : 0 < tp) :
    elapsedComp (resumeOp (pauseOp s tp) tr) tr = elapsedComp s tp
    ∧ (resumeOp (pauseOp s tp) tr).elapsed = s.elapsed
    ∧ (resumeOp (pauseOp s tp) tr).pauseOffset = s.pauseOffset + (tr - tp) := by
  have hpauseop : pauseOp s tp = { s with pausedAt := tp } := by
    simp [pauseOp, hrun, hidle, hcomp]
  rw [hpauseop]
  have hne : ¬ (tp = 0) := ne_of_gt htp
  simp only [resumeOp, hne, if_false]
  cases hpre : s.preset with
  | none =>
      dsimp only
      refine ⟨?_, rfl, rfl⟩
      simp only [elapsedComp]
      ring
  | some preset =>
      dsimp only
      split_ifs with hd
      · refine ⟨?_, rfl, rfl⟩
        simp only [elapsedComp, completeSessionOp]
        ring
      · refine ⟨?_, rfl, rfl⟩
        simp only [elapsedComp]
        ring

/-- Witness for C6: pausing the concrete running state at 50000 ms and
resuming at 80000 ms leaves the clock reading what it read at the pause. -/
theorem C6_pause_resume_witness :
    elapsedComp (resumeOp (pauseOp cexState 50000) 80000) 80000 =
      elapsedComp cexState 50000
    ∧ (resumeOp (pauseOp cexState 50000) 80000).pauseOffset = 0 + (80000 - 50000) := by
  have h := C6_pause_resume_invariant cexState 50000 80000 rfl
    (by simp [cexState]) (by simp [cexState]) (by norm_num)
  exact ⟨h.1, h.2.2⟩

theorem tickPhaseAt_char (preset : SessionPreset)
    (hr : preset.hasReturnPhase = true)
    (hlen : 2 ≤ preset.frequencyEnvelope.length) (t : ℚ) :
    tickPhaseAt preset t =
      if preset.duration ≤ t then SessionPhase.complete
      else if t < inductionEndOf preset then SessionPhase.induction
      else if returnStartOf preset < t then SessionPhase.returnPhase
      else SessionPhase.mainPhase := by
  unfold tickPhaseAt
  by_cases hd : preset.duration ≤ t
  · rw [if_pos hd, if_pos hd]
  · rw [if_neg hd, if_neg hd]
    unfold updatePhaseCalc
    rw [if_neg (by omega)]
    by_cases hi : t < inductionEndOf preset
    · rw [if_pos hi, if_pos hi]
    · rw [if_neg hi, if_neg hi]
      by_cases hrr : returnStartOf preset < t
      · rw [if_pos ⟨hr, hrr⟩, if_pos hrr]
      · rw [if_neg ?_, if_neg hrr]
        rintro ⟨-, hc⟩
        exact hrr hc

/-- C4: for a session with a return phase whose envelope yields
`0 < inductionEnd ≤ returnStart < duration` (true of every shipped preset:
keyframe times are strictly increasing from 0 and end at the duration), the
phase seen by the tick loop is `induction` exactly on `[0, inductionEnd)`
(in fact everywhere below `inductionEnd`), `main` on
`[inductionEnd, returnStart]`, `return` on `(returnStart, duration)` and
`complete` from `duration` on; and it is monotone in elapsed time, so over
any increasing sequence of tick times the phase follows
`induction → main → return → complete` with no phase revisited and none
skipped by a sequence that samples each interval. -/
theorem C4_phase_monotone (preset : SessionPreset)
    (hr : preset.hasReturnPhase = true)
    (hlen : 2 ≤ preset.frequencyEnvelope.length)
    (h0 : 0 < inductionEndOf preset)
    (h1 : inductionEndOf preset ≤ returnStartOf preset)
    (h2 : returnStartOf preset < preset.duration) :
    (∀ t, t < inductionEndOf preset →
        tickPhaseAt preset t = SessionPhase.induction)
    ∧ (∀ t, inductionEndOf preset ≤ t → t ≤ returnStartOf preset →
        tickPhaseAt preset t = SessionPhase.mainPhase)
    ∧ (∀ t, returnStartOf preset < t → t < preset.duration →
        tickPhaseAt preset t = SessionPhase.returnPhase)
    ∧ (∀ t, preset.duration ≤ t →
        tickPhaseAt preset t = SessionPhase.complete)
    ∧ (∀ t t', t ≤ t' →
        phaseRank (tickPhaseAt preset t) ≤ phaseRank (tickPhaseAt preset t')) := by
  refine ⟨?_, ?_, ?_, ?_, ?_⟩
  · intro t ht
    rw [tickPhaseAt_char preset hr hlen t, if_neg (by linarith), if_pos ht]
  · intro t ha hb
    rw [tickPhaseAt_char preset hr hlen t, if_neg (by linarith),
      if_neg (by linarith), if_neg (by linarith)]
  · intro t ha hb
    rw [tickPhaseAt_char preset hr hlen t, if_neg (by linarith),
      if_neg (by linarith), if_pos ha]
  · intro t ht
    rw [tickPhaseAt_char preset hr hlen t, if_pos ht]
  · intro t t' htt
    rw [tickPhaseAt_char preset hr hlen t, tickPhaseAt_char preset hr hlen t']
    split_ifs <;> simp only [phaseRank] <;> linarith

/-- The spec's scenario preset: 180 s, envelope
`[{0,10},{60,10},{120,6},{180,6}]`, with a return phase. -/
def scenarioPreset : SessionPreset :=
  { duration := 180,
    frequencyEnvelope := [⟨0, 10⟩, ⟨60, 10⟩, ⟨120, 6⟩, ⟨180, 6⟩],
    hasReturnPhase := true }

/-- Witness for C4 on the scenario preset: induction at 30, main at 90,
return at 150, complete at 180. -/
theorem C4_phase_monotone_witness :
    tickPhaseAt scenarioPreset 30 = SessionPhase.induction
    ∧ tickPhaseAt scenarioPreset 90 = SessionPhase.mainPhase
    ∧ tickPhaseAt scenarioPreset 150 = SessionPhase.returnPhase
    ∧ tickPhaseAt scenarioPreset 180 = SessionPhase.complete
    ∧ phaseRank (tickPhaseAt scenarioPreset 30) ≤
        phaseRank (tickPhaseAt scenarioPreset 90) := by
  have h := C4_phase_monotone scenarioPreset rfl
    (by norm_num [scenarioPreset])
    (show (0 : ℚ) < 60 by norm_num)
    (show (60 : ℚ) ≤ 120 by norm_num)
    (show (120 : ℚ) < 180 by norm_num)
  exact ⟨h.1 30 (show (30 : ℚ) < 60 by norm_num),
    h.2.1 90 (show (60 : ℚ) ≤ 90 by norm_num) (show (90 : ℚ) ≤ 120 by norm_num),
    h.2.2.1 150 (show (120 : ℚ) < 150 by norm_num) (show (150 : ℚ) < 180 by norm_num),
    h.2.2.2.1 180 (le_refl _),
    h.2.2.2.2 30 90 (by norm_num)⟩

/-- The habituation oscillation added during the main phase (tick line 427):
`Math.sin((elapsed * 2 * Math.PI) / 45) * 0.3`, idealized over the reals. -/
noncomputable def habituationOsc (elapsed : ℚ) : ℝ :=
  Real.sin (((elapsed : ℝ) * 2 * Real.pi) / 45) * 0.3

/-- The beat frequency computed and emitted by `SessionManager.tick`
(lines 422-432): interpolate the envelope at the recomputed elapsed time,
add the habituation oscillation when the freshly updated phase is `main`,
then clamp from below at 0.1 Hz. -/
noncomputable def tickBeatFreq (s : SMState) (now : ℚ) : ℝ :=
  match s.preset with
  | none => 0
  | some preset =>
      let e := (now - s.startTime - s.pauseOffset) / 1000
      let ph := updatePhaseCalc preset e
      let target : ℝ := ((interpolateFrequency preset.frequencyEnvelope e : ℚ) : ℝ)
      let target' := if ph = SessionPhase.mainPhase then target + habituationOsc e else target
      max target' 0.1

/-- C10: on a tick that does not complete the session, the freshly computed
phase is the `updatePhase` decision at the recomputed elapsed time `e`; the
emitted beat frequency is `max(interpolate(env, e) + 0.3·sin(2·π·e/45), 0.1)`
when that phase is `main` and `max(interpolate(env, e), 0.1)` when it is
`induction` or `return`; in particular every emitted beat frequency is at
least 0.1 Hz. -/
theorem C10_tick_beat_frequency (s : SMState) (preset : SessionPreset) (now : ℚ)
    (hp : s.preset = some preset) (hpause : s.pausedAt = 0)
    (hdur : (now - s.startTime - s.pauseOffset) / 1000 < preset.duration) :
    ((tickStep s now).phase =
        updatePhaseCalc preset ((now - s.startTime - s.pauseOffset) / 1000))
    ∧ (updatePhaseCalc preset ((now - s.startTime - s.pauseOffset) / 1000) =
          SessionPhase.mainPhase →
        tickBeatFreq s now =
          max (((interpolateFrequency preset.frequencyEnvelope
                ((now - s.startTime - s.pauseOffset) / 1000) : ℚ) : ℝ)
              + 0.3 * Real.sin (2 * Real.pi *
                  (((now - s.startTime - s.pauseOffset) / 1000 : ℚ) : ℝ) / 45))
            0.1)
    ∧ (updatePhaseCalc preset ((now - s.startTime - s.pauseOffset) / 1000) =
          SessionPhase.induction
        ∨ updatePhaseCalc preset ((now - s.startTime - s.pauseOffset) / 1000) =
          SessionPhase.returnPhase →
        tickBeatFreq s now =
          max (((interpolateFrequency preset.frequencyEnvelope
              ((now - s.startTime - s.pauseOffset) / 1000) : ℚ) : ℝ)) 0.1)
    ∧ 0.1 ≤ tickBeatFreq s now := by
  have hphase : (tickStep s now).phase =
      updatePhaseCalc preset ((now - s.startTime - s.pauseOffset) / 1000) := by
    simp only [tickStep, hp]
    rw [if_neg (by rw [hpause]; norm_num), if_neg (not_le.mpr hdur)]
    simp [updatePhase, hp]
  have hbf : tickBeatFreq s now =
      max ((if updatePhaseCalc preset ((now - s.startTime - s.pauseOffset) / 1000) =
            SessionPhase.mainPhase then
          ((interpolateFrequency preset.frequencyEnvelope
              ((now - s.startTime - s.pauseOffset) / 1000) : ℚ) : ℝ)
            + habituationOsc ((now - s.startTime - s.pauseOffset) / 1000)
        else ((interpolateFrequency preset.frequencyEnvelope
            ((now - s.startTime - s.pauseOffset) / 1000) : ℚ) : ℝ))) 0.1 := by
    simp only [tickBeatFreq, hp]
  refine ⟨hphase, ?_, ?_, ?_⟩
  · intro hmain
    rw [hbf, if_pos hmain, habituationOsc]
    have harg : (((now - s.startTime - s.pauseOffset) / 1000 : ℚ) : ℝ) * 2 * Real.pi / 45
        = 2 * Real.pi * (((now - s.startTime - s.pauseOffset) / 1000 : ℚ) : ℝ) / 45 := by
      ring
    rw [harg]
    ring_nf
  · intro hother
    have hne : updatePhaseCalc preset ((now - s.startTime - s.pauseOffset) / 1000) ≠
        SessionPhase.mainPhase := by
      rcases hother with h | h <;> rw [h] <;> simp
    rw [hbf, if_neg hne]
  · rw [hbf]
    exact le_max_right _ _

/-- Witness for C10 at a concrete running state (elapsed 30 s of the
100-second session): the emitted beat frequency is at least 0.1 Hz. -/
theorem C10_tick_beat_frequency_witness :
    (0.1 : ℝ) ≤ tickBeatFreq cexState 30000 := by
  have h := C10_tick_beat_frequency cexState cexPreset 30000 rfl rfl
    (by norm_num [cexState, cexPreset])
  exact h.2.2.2

/-! ## Binaural tone engine (BinauralEngine.createPair / rampBeatFrequency)

The carrier layers of the ASGEP master track declare an optional
`fixedBeatFreq` (asgepMasterTrack.ts line 43), documented as pinning that
layer's right oscillator at `carrierFreq + fixedBeatFreq`.  The engine code
(ambientSounds.ts lines 217-286) reads only `carrierFreq` and `gainDb`. -/

/-- A carrier layer `{carrierFreq, gainDb, fixedBeatFreq?}`. -/
structure CarrierLayer where
  carrierFreq : ℚ
  gainDb : ℚ
  fixedBeatFreq : Option ℚ
deriving DecidableEq

/-- Per-oscillator linear gain (ambientSounds.ts line 229):
`10^(gainDb/20) × 0.3`. -/
noncomputable def linearGainOf (gainDb : ℚ) : ℝ :=
  Real.rpow 10 ((gainDb : ℝ) / 20) * 0.3

/-- The audio-parameter content of one oscillator pair as configured by
`createPair`: oscillator frequencies, per-branch gains and pan positions. -/
structure OscillatorPair where
  leftFreq : ℚ
  rightFreq : ℚ
  leftGain : ℝ
  rightGain : ℝ
  leftPan : ℚ
  rightPan : ℚ
  carrierFreq : ℚ

/-- `BinauralEngine.createPair` (ambientSounds.ts lines 217-256): left
oscillator at `carrierFreq`, right at `carrierFreq + beatFreq`, both gains
`10^(gainDb/20) × 0.3`, hard pans -1 and +1.  Note: `layer.fixedBeatFreq`
is never read. -/
noncomputable def createPair (layer : CarrierLayer) (beatFreq : ℚ) : OscillatorPair :=
  { leftFreq := layer.carrierFreq
    rightFreq := layer.carrierFreq + beatFreq
    leftGain := linearGainOf layer.gainDb
    rightGain := linearGainOf layer.gainDb
    leftPan := -1
    rightPan := 1
    carrierFreq := layer.carrierFreq }

/-- The right-oscillator ramp target that `BinauralEngine.rampBeatFrequency`
(lines 258-278) schedules for one pair: `pair.carrierFreq + newBeatFreq`,
for every pair in the loop with no exception for fixed-beat layers. -/
def rampTargetFreq (pair : OscillatorPair) (newBeatFreq : ℚ) : ℚ :=
  pair.carrierFreq + newBeatFreq

/-- The 40 Hz Gamma overlay layer of the ASGEP master track
(asgepMasterTrack.ts line 43): `{carrierFreq: 400, gainDb: -60,
fixedBeatFreq: 40}`. -/
def gammaLayer : CarrierLayer := ⟨400, -60, some 40⟩

/-- C3 (code bug): `createPair` builds every pair with left = carrierFreq,
right = carrierFreq + beatFreq, gains `10^(gainDb/20)×0.3` and pans -1/+1 —
but a layer declaring `fixedBeatFreq` is NOT pinned at
`carrierFreq + fixedBeatFreq`: with the ASGEP Gamma layer
(`fixedBeatFreq = 40`) and envelope beat 8 Hz, the right oscillator is set
to 408 Hz, not 440 Hz, and `rampBeatFrequency(6, ·)` retargets it to
406 Hz, so the layer follows the envelope instead of holding the
documented constant 40 Hz offset. -/
theorem C3_createPair_ignores_fixedBeatFreq :
    (∀ layer beatFreq, (createPair layer beatFreq).leftFreq = layer.carrierFreq
      ∧ (createPair layer beatFreq).rightFreq = layer.carrierFreq + beatFreq
      ∧ (createPair layer beatFreq).leftGain = linearGainOf layer.gainDb
      ∧ (createPair layer beatFreq).rightGain = linearGainOf layer.gainDb
      ∧ (createPair layer beatFreq).leftPan = -1
      ∧ (createPair layer beatFreq).rightPan = 1)
    ∧ (createPair gammaLayer 8).rightFreq = 408
    ∧ gammaLayer.fixedBeatFreq = some 40
    ∧ gammaLayer.carrierFreq + 40 = 440
    ∧ (createPair gammaLayer 8).rightFreq ≠ 440
    ∧ rampTargetFreq (createPair gammaLayer 8) 6 = 406
    ∧ rampTargetFreq (createPair gammaLayer 8) 6 ≠ 440 := by
  refine ⟨fun layer beatFreq => ⟨rfl, rfl, rfl, rfl, rfl, rfl⟩, ?_, rfl, ?_, ?_, ?_, ?_⟩
  · show (400 : ℚ) + 8 = 408; norm_num
  · show (400 : ℚ) + 40 = 440; norm_num
  · show (400 : ℚ) + 8 ≠ 440; norm_num
  · show (400 : ℚ) + 6 = 406; norm_num
  · show (400 : ℚ) + 6 ≠ 440; norm_num

/-! ## Isochronic pulse scheduler (IsochronicEngine.schedulePulses) -/

/-- The two Web Audio automation calls the scheduler issues. -/
inductive BPKind where
  | setValue
  | linearRampTo
deriving DecidableEq

/-- One gain-automation breakpoint: instant, target value, call kind. -/
structure PulseBP where
  time : ℚ
  value : ℚ
  kind : BPKind
deriving DecidableEq

/-- One on/off cycle of the loop body (part_004 lines 112-127): set 0 at `t`,
ramp to 1 over `rampTime`, hold 1 until `halfPeriod - rampTime`, ramp to 0
at `halfPeriod`, held at 0 until the next cycle at `t + period`. -/
def pulseCycle (t period rampTime : ℚ) : List PulseBP :=
  let halfPeriod := period / 2
  [⟨t, 0, BPKind.setValue⟩,
   ⟨t + rampTime, 1, BPKind.linearRampTo⟩,
   ⟨t + halfPeriod - rampTime, 1, BPKind.setValue⟩,
   ⟨t + halfPeriod, 0, BPKind.linearRampTo⟩,
   ⟨t + period, 0, BPKind.setValue⟩]

/-- The `while (t < endTime)` loop of `schedulePulses`, with explicit fuel
(each iteration advances `t` by one period, so the count below is exact).
Returns the emitted breakpoints and the final cursor `t` stored into
`lastScheduledTime`. -/
def schedulePulsesLoop (fuel : ℕ) (period rampTime endTime t : ℚ) :
    List PulseBP × ℚ :=
  match fuel with
  | 0 => ([], t)
  | fuel + 1 =>
      if t < endTime then
        let rest := schedulePulsesLoop fuel period rampTime endTime (t + period)
        (pulseCycle t period rampTime ++ rest.1, rest.2)
      else ([], t)

/-- Number of loop iterations: cycles of length `period` needed to cover
`[t, endTime)`. -/
def pulseCycleCount (period endTime t : ℚ) : ℕ :=
  (⌈(endTime - t) / period⌉).toNat

/-- The scheduling cursor rule of `schedulePulses` (part_004 lines 100-102):
reset to `now` after a stall of more than 0.1 s, else resume from
`max(lastScheduledTime, now)`. -/
def startFromOf (lastScheduledTime now : ℚ) : ℚ :=
  if lastScheduledTime < now - 0.1 then now else max lastScheduledTime now

/-- `IsochronicEngine.schedulePulses` (part_004 lines 91-131): cover the
next 1.1 s look-ahead window from the cursor with trapezoidal cycles at the
instantaneous beat frequency. -/
def schedulePulses (lastScheduledTime now beatFreq : ℚ) : List PulseBP × ℚ :=
  let endTime := now + 1.1
  let startFrom := startFromOf lastScheduledTime now
  let period := 1 / beatFreq
  schedulePulsesLoop (pulseCycleCount period endTime startFrom) period 0.002
    endTime startFrom

theorem pulseCycleCount_zero (period endTime t : ℚ) (hp : 0 < period)
    (ht : endTime ≤ t) : pulseCycleCount period endTime t = 0 := by
  unfold pulseCycleCount
  have hnum : (endTime - t) / period ≤ 0 :=
    div_nonpos_iff.mpr (Or.inr ⟨by linarith, le_of_lt hp⟩)
  have : ⌈(endTime - t) / period⌉ ≤ 0 := by
    rw [show (0 : ℤ) = ⌈(0 : ℚ)⌉ by simp]
    exact Int.ceil_le_ceil hnum
  omega

theorem pulseCycleCount_succ (period endTime t : ℚ) (hp : 0 < period)
    (ht : t < endTime) :
    pulseCycleCount period endTime t =
      pulseCycleCount period endTime (t + period) + 1 := by
  unfold pulseCycleCount
  have hpos : 0 < (endTime - t) / period := div_pos (by linarith) hp
  have hcpos : 0 < ⌈(endTime - t) / period⌉ := Int.ceil_pos.mpr hpos
  have harg : (endTime - (t + period)) / period = (endTime - t) / period - 1 := by
    field_simp
    ring
  rw [harg, Int.ceil_sub_one]
  omega

theorem list_bind_map_nat {γ : Type} (l : List ℕ) (g : ℕ → ℕ)
    (f : ℕ → List γ) :
    (l.map g).bind f = l.bind (fun x => f (g x)) := by
  induction l with
  | nil => rfl
  | cons a l ih =>
      simp only [List.map_cons]
      rw [show ((g a :: l.map g).bind f) = f (g a) ++ (l.map g).bind f from rfl]
      rw [show ((a :: l).bind (fun x => f (g x))) =
        f (g a) ++ l.bind (fun x => f (g x)) from rfl]
      rw [ih]

theorem schedulePulsesLoop_spec (period rampTime endTime : ℚ) (hp : 0 < period) :
    ∀ (fuel : ℕ) (t : ℚ), pulseCycleCount period endTime t ≤ fuel →
      schedulePulsesLoop fuel period rampTime endTime t =
        ((List.range (pulseCycleCount period endTime t)).bind
            (fun k => pulseCycle (t + k * period) period rampTime),
          t + pulseCycleCount period endTime t * period) := by
  intro fuel
  induction fuel with
  | zero =>
      intro t hc
      have h0 : pulseCycleCount period endTime t = 0 := Nat.le_zero.mp hc
      rw [h0]
      simp [schedulePulsesLoop]
  | succ n ih =>
      intro t hc
      by_cases ht : t < endTime
      · have hstep := pulseCycleCount_succ period endTime t hp ht
        have hrec := ih (t + period) (by omega)
        simp only [schedulePulsesLoop]
        rw [if_pos ht, hrec, hstep]
        set m := pulseCycleCount period endTime (t + period) with hm
        simp only [Prod.mk.injEq]
        constructor
        · rw [List.range_succ_eq_map]
          rw [show ((0 :: List.map Nat.succ (List.range m)).bind
              (fun k => pulseCycle (t + (k : ℚ) * period) period rampTime)) =
            pulseCycle (t + ((0 : ℕ) : ℚ) * period) period rampTime ++
              ((List.map Nat.succ (List.range m)).bind
                (fun k => pulseCycle (t + (k : ℚ) * period) period rampTime)) from rfl]
          rw [list_bind_map_nat]
          have h00 : t + ((0 : ℕ) : ℚ) * period = t := by push_cast; ring
          rw [h00]
          have hfun : (fun k : ℕ =>
                pulseCycle (t + period + (k : ℚ) * period) period rampTime) =
              (fun x : ℕ =>
                pulseCycle (t + ((Nat.succ x : ℕ) : ℚ) * period) period rampTime) := by
            funext k
            have hk : t + period + (k : ℚ) * period =
                t + ((Nat.succ k : ℕ) : ℚ) * period := by push_cast; ring
            rw [hk]
          rw [hfun]
        · push_cast
          ring
      · have h0 : pulseCycleCount period endTime t = 0 :=
          pulseCycleCount_zero period endTime t hp (not_lt.mp ht)
        rw [h0]
        simp only [schedulePulsesLoop]
        rw [if_neg ht]
        simp

/-- C7: for a constant beat frequency `f`, the scheduler tiles the window it
covers with contiguous cycles of exact length `1/f` — cycle `k` starting at
`startFrom + k·(1/f)` — each cycle a trapezoid (2 ms attack to 1, hold at 1
until half-period minus 2 ms, 2 ms release to 0, 0 for the rest of the
period); a window of length `w` holds `n` cycles with `w·f ≤ n < w·f + 1`,
so a 10-second window holds `10·f` complete cycles up to ±1 rounding; and
`schedulePulses` is exactly this tiling of the 1.1 s look-ahead window from
the resynchronized cursor. -/
theorem C7_pulse_scheduler (f lastScheduledTime now t0 w : ℚ)
    (hf : 0 < f) (hw : 0 < w) :
    (∀ t, pulseCycle t (1 / f) 0.002 =
      [⟨t, 0, BPKind.setValue⟩,
       ⟨t + 0.002, 1, BPKind.linearRampTo⟩,
       ⟨t + (1 / f) / 2 - 0.002, 1, BPKind.setValue⟩,
       ⟨t + (1 / f) / 2, 0, BPKind.linearRampTo⟩,
       ⟨t + 1 / f, 0, BPKind.setValue⟩])
    ∧ (schedulePulsesLoop (pulseCycleCount (1 / f) (t0 + w) t0) (1 / f) 0.002
          (t0 + w) t0 =
        ((List.range (pulseCycleCount (1 / f) (t0 + w) t0)).bind
            (fun k => pulseCycle (t0 + k * (1 / f)) (1 / f) 0.002),
          t0 + pulseCycleCount (1 / f) (t0 + w) t0 * (1 / f)))
    ∧ (w * f ≤ (pulseCycleCount (1 / f) (t0 + w) t0 : ℚ)
        ∧ (pulseCycleCount (1 / f) (t0 + w) t0 : ℚ) < w * f + 1)
    ∧ schedulePulses lastScheduledTime now f =
        schedulePulsesLoop
          (pulseCycleCount (1 / f) (now + 1.1) (startFromOf lastScheduledTime now))
          (1 / f) 0.002 (now + 1.1) (startFromOf lastScheduledTime now) := by
  have hp : (0 : ℚ) < 1 / f := by positivity
  refine ⟨fun t => rfl, ?_, ?_, rfl⟩
  · exact schedulePulsesLoop_spec (1 / f) 0.002 (t0 + w) hp
      (pulseCycleCount (1 / f) (t0 + w) t0) t0 (le_refl _)
  · have harg : (t0 + w - t0) / (1 / f) = w * f := by
      field_simp
    unfold pulseCycleCount
    rw [harg]
    have h1 : (0 : ℚ) < w * f := mul_pos hw hf
    have hc1 : 0 < ⌈w * f⌉ := Int.ceil_pos.mpr h1
    have hcast : ((⌈w * f⌉.toNat : ℕ) : ℚ) = ((⌈w * f⌉ : ℤ) : ℚ) := by
      exact_mod_cast Int.toNat_of_nonneg (le_of_lt hc1)
    rw [hcast]
    exact ⟨Int.le_ceil _, Int.ceil_lt_add_one _⟩

/-- Witness for C7 at `f = 10 Hz` over a 10-second window starting at 0:
the cycle count lies in `[100, 101)`. -/
theorem C7_pulse_scheduler_witness :
    (10 : ℚ) * 10 ≤ (pulseCycleCount (1 / 10) (0 + 10) 0 : ℚ)
    ∧ ((pulseCycleCount (1 / 10) (0 + 10) 0 : ℚ) < 10 * 10 + 1) := by
  have h := C7_pulse_scheduler 10 0 0 0 10 (by norm_num) (by norm_num)
  exact h.2.2.1

/-! ## Ambient decoded-buffer cache (AmbientEngine.fetchBuffer)

The cache maps filenames to decoded buffers (`bufferCache : Map`) with an
insertion-order list `cacheOrder`; filenames are modelled as abstract key
identifiers.  Buffer contents are irrelevant to residency, so the map is
modelled by its key list (kept in insertion order, matching `Map`
iteration/insertion semantics for string keys). -/

/-- Abstract cache key, standing for the filename strings of the source. -/
abbrev CacheKey := ℕ

/-- `MAX_CACHED_BUFFERS = 3` (AmbientEngine.ts line 4). -/
def MAX_CACHED_BUFFERS : ℕ := 3

/-- The cache state: the key set of `bufferCache` (insertion-ordered) and
the eviction queue `cacheOrder`. -/
structure AmbientCache where
  mapKeys : List CacheKey
  cacheOrder : List CacheKey
deriving DecidableEq

/-- `Map.set` on the key set: appends the key when absent. -/
def cacheSet (keys : List CacheKey) (k : CacheKey) : List CacheKey :=
  if k ∈ keys then keys else keys ++ [k]

/-- `Map.delete` on the key set. -/
def cacheDelete (keys : List CacheKey) (k : CacheKey) : List CacheKey :=
  keys.erase k

/-- The eviction loop of `fetchBuffer` (AmbientEngine.ts lines 164-167):
`while (cacheOrder.length > MAX_CACHED_BUFFERS) { evicted = shift();
bufferCache.delete(evicted) }`. -/
def evictLoop : List CacheKey → List CacheKey → List CacheKey × List CacheKey
  | [], keys => ([], keys)
  | e :: rest, keys =>
      if MAX_CACHED_BUFFERS < (e :: rest).length then
        evictLoop rest (cacheDelete keys e)
      else (e :: rest, keys)

/-- `AmbientEngine.fetchBuffer` (lines 138-174) on the cache state: return
the cached entry on a hit; on a miss, decode (`success`), insert, append to
the order queue, and evict oldest-first down to the bound.  A failed fetch
or decode leaves the cache untouched. -/
def fetchBufferModel (c : AmbientCache) (k : CacheKey) (success : Bool) :
    AmbientCache :=
  if k ∈ c.mapKeys then c
  else if success then
    let keys := cacheSet c.mapKeys k
    let order := c.cacheOrder ++ [k]
    let res := evictLoop order keys
    ⟨res.2, res.1⟩
  else c

/-- The cache is empty at engine construction. -/
def emptyCache : AmbientCache := ⟨[], []⟩

theorem evictLoop_length_le (order keys : List CacheKey) :
    (evictLoop order keys).1.length ≤ MAX_CACHED_BUFFERS := by
  induction order generalizing keys with
  | nil => simp [evictLoop, MAX_CACHED_BUFFERS]
  | cons e rest ih =>
      rw [evictLoop]
      split_ifs with h
      · exact ih _
      · simpa using not_lt.mp h

theorem evictLoop_eq_of_eq (order : List CacheKey) :
    (evictLoop order order).2 = (evictLoop order order).1 := by
  induction order with
  | nil => rfl
  | cons e rest ih =>
      rw [evictLoop]
      split_ifs with h
      · rw [show cacheDelete (e :: rest) e = rest from by
          simp [cacheDelete, List.erase_cons_head]]
        exact ih
      · rfl

/-- C8: the decoded-buffer cache stays within 3 entries after every fetch
(hits and failed fetches leave it unchanged; a caching miss evicts down to
the bound), eviction removes the head of the insertion-order queue (FIFO),
the map's key set always mirrors the order queue, and after 5 successful
requests for pairwise-distinct ids starting from the empty cache exactly
the buffers of the 3 most recently requested ids remain resident. -/
theorem C8_ambient_cache :
    (∀ (c : AmbientCache) (k : CacheKey) (b : Bool),
        c.cacheOrder.length ≤ MAX_CACHED_BUFFERS →
        (fetchBufferModel c k b).cacheOrder.length ≤ MAX_CACHED_BUFFERS)
    ∧ (∀ (c : AmbientCache) (k : CacheKey),
        c.cacheOrder.length = 3 → k ∉ c.mapKeys →
        (fetchBufferModel c k true).cacheOrder = c.cacheOrder.tail ++ [k])
    ∧ (∀ (c : AmbientCache) (k : CacheKey) (b : Bool),
        c.mapKeys = c.cacheOrder →
        (fetchBufferModel c k b).mapKeys = (fetchBufferModel c k b).cacheOrder)
    ∧ (∀ k1 k2 k3 k4 k5 : CacheKey,
        k2 ≠ k1 → k3 ≠ k1 → k3 ≠ k2 → k4 ≠ k1 → k4 ≠ k2 → k4 ≠ k3 →
        k5 ≠ k2 → k5 ≠ k3 → k5 ≠ k4 →
        (fetchBufferModel (fetchBufferModel (fetchBufferModel (fetchBufferModel
            (fetchBufferModel emptyCache k1 true) k2 true) k3 true) k4 true)
            k5 true).cacheOrder = [k3, k4, k5]
        ∧ (fetchBufferModel (fetchBufferModel (fetchBufferModel (fetchBufferModel
            (fetchBufferModel emptyCache k1 true) k2 true) k3 true) k4 true)
            k5 true).mapKeys = [k3, k4, k5]) := by
  refine ⟨?_, ?_, ?_, ?_⟩
  · intro c k b hlen
    unfold fetchBufferModel
    split_ifs with h1 h2
    · exact hlen
    · exact evictLoop_length_le _ _
    · exact hlen
  · intro c k hlen hk
    obtain ⟨a, b, cc, horder⟩ := List.length_eq_three.mp hlen
    simp only [fetchBufferModel, if_neg hk, if_pos rfl, horder]
    rw [show ([a, b, cc] ++ [k] : List CacheKey) = [a, b, cc, k] from rfl]
    rw [show evictLoop [a, b, cc, k] (cacheSet c.mapKeys k) =
      evictLoop [b, cc, k] (cacheDelete (cacheSet c.mapKeys k) a) from by
        rw [evictLoop]
        rw [if_pos (by simp [MAX_CACHED_BUFFERS])]]
    rw [show evictLoop [b, cc, k] (cacheDelete (cacheSet c.mapKeys k) a) =
      ([b, cc, k], cacheDelete (cacheSet c.mapKeys k) a) from by
        rw [evictLoop]
        rw [if_neg (by simp [MAX_CACHED_BUFFERS])]]
    simp
  · intro c k b hwf
    unfold fetchBufferModel
    split_ifs with h1 h2
    · exact hwf
    · have hset : cacheSet c.mapKeys k = c.cacheOrder ++ [k] := by
        rw [cacheSet, if_neg h1, hwf]
      rw [hset]
      exact evictLoop_eq_of_eq _
    · exact hwf
  · intro k1 k2 k3 k4 k5 h21 h31 h32 h41 h42 h43 h52 h53 h54
    have s1 : fetchBufferModel emptyCache k1 true = ⟨[k1], [k1]⟩ := by
      simp [fetchBufferModel, emptyCache, cacheSet, evictLoop, MAX_CACHED_BUFFERS]
    have s2 : fetchBufferModel ⟨[k1], [k1]⟩ k2 true = ⟨[k1, k2], [k1, k2]⟩ := by
      simp [fetchBufferModel, cacheSet, evictLoop, MAX_CACHED_BUFFERS, h21]
    have s3 : fetchBufferModel ⟨[k1, k2], [k1, k2]⟩ k3 true =
        ⟨[k1, k2, k3], [k1, k2, k3]⟩ := by
      simp [fetchBufferModel, cacheSet, evictLoop, MAX_CACHED_BUFFERS, h31, h32]
    have s4 : fetchBufferModel ⟨[k1, k2, k3], [k1, k2, k3]⟩ k4 true =
        ⟨[k2, k3, k4], [k2, k3, k4]⟩ := by
      simp [fetchBufferModel, cacheSet, evictLoop, MAX_CACHED_BUFFERS,
        cacheDelete, h41, h42, h43]
    have s5 : fetchBufferModel ⟨[k2, k3, k4], [k2, k3, k4]⟩ k5 true =
        ⟨[k3, k4, k5], [k3, k4, k5]⟩ := by
      simp [fetchBufferModel, cacheSet, evictLoop, MAX_CACHED_BUFFERS,
        cacheDelete, h52, h53, h54]
    rw [s1, s2, s3, s4, s5]
    exact ⟨rfl, rfl⟩

/-- Witness for C8: requesting the five distinct ids 1..5 leaves exactly
ids 3, 4, 5 resident, in insertion order. -/
theorem C8_ambient_cache_witness :
    (fetchBufferModel (fetchBufferModel (fetchBufferModel (fetchBufferModel
        (fetchBufferModel emptyCache (1 : ℕ) true) 2 true) 3 true) 4 true)
        5 true).cacheOrder = [3, 4, 5] := by
  have h := C8_ambient_cache.2.2.2 (1 : ℕ) 2 3 4 5 (by norm_num) (by norm_num)
    (by norm_num) (by norm_num) (by norm_num) (by norm_num) (by norm_num)
    (by norm_num) (by norm_num)
  exact h.1

/-! ## Narration sequencer (VoiceCueEngine, part_003)

Cue text contents are irrelevant to cursor motion; the truthiness of
`cue.text` is modelled by a boolean. -/

/-- One voice cue `{time, text?, chime?, chimeOnly?}`. -/
structure VoiceCue where
  time : ℚ
  hasText : Bool
  chime : Bool
  chimeOnly : Bool
deriving DecidableEq

/-- Placeholder cue for out-of-range index access (never reached under the
loop guards). -/
def dfltCue : VoiceCue := ⟨0, false, false, false⟩

/-- The binary-search loop of `VoiceCueEngine.seek` (part_003 lines 115-125):
`mid = (lo+hi) >>> 1`; move `lo` past `mid` when `cues[mid].time < time`,
else close `hi` down to `mid`; returns the final `lo`. -/
def seekLoop (cues : List VoiceCue) (time : ℚ) (lo hi : ℕ) : ℕ :=
  if h : lo < hi then
    if (cues.getD ((lo + hi) / 2) dfltCue).time < time then
      seekLoop cues time ((lo + hi) / 2 + 1) hi
    else
      seekLoop cues time lo ((lo + hi) / 2)
  else lo
termination_by hi - lo
decreasing_by
  · omega
  · omega

/-- `VoiceCueEngine.seek`'s relocated cursor: binary search over the whole
cue list. -/
def voiceSeekIndex (cues : List VoiceCue) (time : ℚ) : ℕ :=
  seekLoop cues time 0 cues.length

/-- The cursor/playback state of `VoiceCueEngine`. -/
structure VoiceState where
  cues : List VoiceCue
  nextCueIndex : ℕ
  activePlayback : Bool
deriving DecidableEq

/-- `VoiceCueEngine.seek` (part_003 lines 112-132): stop the active source,
relocate the cursor. -/
def voiceSeek (s : VoiceState) (time : ℚ) : VoiceState :=
  { s with activePlayback := false,
           nextCueIndex := voiceSeekIndex s.cues time }

/-- The cue-consuming loop of `VoiceCueEngine.tick` (part_003 line 67):
`while (next < cues.length && cues[next].time <= elapsed) next++`. -/
def tickCuesLoop (cues : List VoiceCue) (elapsed : ℚ) (i : ℕ) : ℕ :=
  if h : i < cues.length then
    if (cues.getD i dfltCue).time ≤ elapsed then tickCuesLoop cues elapsed (i + 1)
    else i
  else i
termination_by cues.length - i

/-- `VoiceCueEngine.tick`: advance the cursor, reporting the list of cue
indices consumed (dispatched) by this tick. -/
def voiceTick (s : VoiceState) (elapsed : ℚ) : VoiceState × List ℕ :=
  let j := tickCuesLoop s.cues elapsed s.nextCueIndex
  ({ s with nextCueIndex := j },
    List.range' s.nextCueIndex (j - s.nextCueIndex))

/-- Cues are sorted ascending by time (established once at `init` by
`[...cues].sort((a, b) => a.time - b.time)`). -/
def CuesSorted (cues : List VoiceCue) : Prop :=
  cues.Pairwise (fun a b => a.time ≤ b.time)

theorem cuesSorted_getD_le (cues : List VoiceCue) (h : CuesSorted cues)
    (i j : ℕ) (hij : i ≤ j) (hj : j < cues.length) :
    (cues.getD i dfltCue).time ≤ (cues.getD j dfltCue).time := by
  rcases eq_or_lt_of_le hij with rfl | hlt
  · exact le_refl _
  · have hi : i < cues.length := lt_trans hlt hj
    have hget := List.pairwise_iff_get.mp h ⟨i, hi⟩ ⟨j, hj⟩ hlt
    rw [List.getD_eq_get cues dfltCue hi, List.getD_eq_get cues dfltCue hj]
    exact hget

theorem seekLoop_spec (cues : List VoiceCue) (time : ℚ) (hs : CuesSorted cues) :
    ∀ (n lo hi : ℕ), hi - lo = n → hi ≤ cues.length →
      (∀ i, i < lo → (cues.getD i dfltCue).time < time) →
      (∀ i, hi ≤ i → i < cues.length → time ≤ (cues.getD i dfltCue).time) →
      lo ≤ seekLoop cues time lo hi
      ∧ seekLoop cues time lo hi ≤ max lo hi
      ∧ (∀ i, i < seekLoop cues time lo hi → (cues.getD i dfltCue).time < time)
      ∧ (∀ i, seekLoop cues time lo hi ≤ i → i < cues.length →
          time ≤ (cues.getD i dfltCue).time) := by
  intro n
  induction n using Nat.strong_induction_on with
  | _ n ih =>
      intro lo hi hn hhi hbelow habove
      rw [seekLoop]
      by_cases h : lo < hi
      · rw [dif_pos h]
        have hmlo : lo ≤ (lo + hi) / 2 := by omega
        have hmhi : (lo + hi) / 2 < hi := by omega
        by_cases hc : (cues.getD ((lo + hi) / 2) dfltCue).time < time
        · rw [if_pos hc]
          have hrec := ih (hi - ((lo + hi) / 2 + 1)) (by omega) ((lo + hi) / 2 + 1)
            hi rfl hhi ?_ habove
          · exact ⟨by omega, by rcases hrec with ⟨-, hb, -, -⟩; omega,
              hrec.2.2.1, hrec.2.2.2⟩
          · intro i hi'
            rcases lt_or_ge i lo with hil | hil
            · exact hbelow i hil
            · have hle : (cues.getD i dfltCue).time ≤
                  (cues.getD ((lo + hi) / 2) dfltCue).time :=
                cuesSorted_getD_le cues hs i ((lo + hi) / 2) (by omega) (by omega)
              exact lt_of_le_of_lt hle hc
        · rw [if_neg hc]
          have hrec := ih ((lo + hi) / 2 - lo) (by omega) lo ((lo + hi) / 2)
            rfl (by omega) hbelow ?_
          · exact ⟨hrec.1, by rcases hrec with ⟨-, hb, -, -⟩; omega,
              hrec.2.2.1, hrec.2.2.2⟩
          · intro i hmi hilen
            have h1 : time ≤ (cues.getD ((lo + hi) / 2) dfltCue).time :=
              not_lt.mp hc
            have h2 : (cues.getD ((lo + hi) / 2) dfltCue).time ≤
                (cues.getD i dfltCue).time :=
              cuesSorted_getD_le cues hs ((lo + hi) / 2) i hmi hilen
            exact le_trans h1 h2
      · rw [dif_neg h]
        refine ⟨le_refl _, le_max_left _ _, hbelow, ?_⟩
        intro i hli hlen
        exact habove i (by omega) hlen

theorem voiceSeekIndex_spec (cues : List VoiceCue) (time : ℚ)
    (hs : CuesSorted cues) :
    voiceSeekIndex cues time ≤ cues.length
    ∧ (∀ i, i < voiceSeekIndex cues time → (cues.getD i dfltCue).time < time)
    ∧ (∀ i, voiceSeekIndex cues time ≤ i → i < cues.length →
        time ≤ (cues.getD i dfltCue).time) := by
  have h := seekLoop_spec cues time hs cues.length 0 cues.length rfl (le_refl _)
    (by intro i hi; omega)
    (by intro i h1 h2; omega)
  refine ⟨?_, h.2.2.1, h.2.2.2⟩
  have := h.2.1
  unfold voiceSeekIndex
  omega

theorem tickCuesLoop_ge (cues : List VoiceCue) (elapsed : ℚ) :
    ∀ (n i : ℕ), cues.length - i = n → i ≤ tickCuesLoop cues elapsed i := by
  intro n
  induction n using Nat.strong_induction_on with
  | _ n ih =>
      intro i hn
      rw [tickCuesLoop]
      by_cases h : i < cues.length
      · rw [dif_pos h]
        by_cases hc : (cues.getD i dfltCue).time ≤ elapsed
        · rw [if_pos hc]
          have := ih (cues.length - (i + 1)) (by omega) (i + 1) rfl
          omega
        · rw [if_neg hc]
      · rw [dif_neg h]

theorem tickCuesLoop_le_len (cues : List VoiceCue) (elapsed : ℚ) :
    ∀ (n i : ℕ), cues.length - i = n → i ≤ cues.length →
      tickCuesLoop cues elapsed i ≤ cues.length := by
  intro n
  induction n using Nat.strong_induction_on with
  | _ n ih =>
      intro i hn hil
      rw [tickCuesLoop]
      by_cases h : i < cues.length
      · rw [dif_pos h]
        by_cases hc : (cues.getD i dfltCue).time ≤ elapsed
        · rw [if_pos hc]
          exact ih (cues.length - (i + 1)) (by omega) (i + 1) rfl (by omega)
        · rw [if_neg hc]
          exact hil
      · rw [dif_neg h]
        exact hil

theorem tickCuesLoop_dispatched (cues : List VoiceCue) (elapsed : ℚ) :
    ∀ (n i : ℕ), cues.length - i = n →
      ∀ j, i ≤ j → j < tickCuesLoop cues elapsed i →
        j < cues.length ∧ (cues.getD j dfltCue).time ≤ elapsed := by
  intro n
  induction n using Nat.strong_induction_on with
  | _ n ih =>
      intro i hn j hij hjlt
      rw [tickCuesLoop] at hjlt
      by_cases h : i < cues.length
      · rw [dif_pos h] at hjlt
        by_cases hc : (cues.getD i dfltCue).time ≤ elapsed
        · rw [if_pos hc] at hjlt
          rcases eq_or_lt_of_le hij with rfl | hlt
          · exact ⟨h, hc⟩
          · exact ih (cues.length - (i + 1)) (by omega) (i + 1) rfl j hlt hjlt
        · rw [if_neg hc] at hjlt
          omega
      · rw [dif_neg h] at hjlt
        omega

/-- C9: after `seek(t)` on a time-sorted cue list, the cursor sits at the
first cue with `time ≥ t` (everything before it is strictly earlier than
`t`, everything from it on is at or after `t`), in-flight playback is
cancelled; the tick cursor never moves backward, every cue index dispatched
by the next tick is at or after the relocated cursor — so its cue time is
`≥ t` — and also has `time ≤ elapsed`; and when a tick dispatches anything,
the first dispatched index is exactly the relocated cursor. -/
theorem C9_narration_cursor (s : VoiceState) (t : ℚ) (hs : CuesSorted s.cues) :
    ((voiceSeek s t).nextCueIndex ≤ s.cues.length
      ∧ (∀ i, i < (voiceSeek s t).nextCueIndex →
          (s.cues.getD i dfltCue).time < t)
      ∧ (∀ i, (voiceSeek s t).nextCueIndex ≤ i → i < s.cues.length →
          t ≤ (s.cues.getD i dfltCue).time))
    ∧ (voiceSeek s t).activePlayback = false
    ∧ (∀ (s' : VoiceState) (e : ℚ),
        s'.nextCueIndex ≤ (voiceTick s' e).1.nextCueIndex)
    ∧ (∀ e j, j ∈ (voiceTick (voiceSeek s t) e).2 →
        (voiceSeek s t).nextCueIndex ≤ j
        ∧ j < s.cues.length
        ∧ t ≤ (s.cues.getD j dfltCue).time
        ∧ (s.cues.getD j dfltCue).time ≤ e)
    ∧ (∀ e, (voiceTick (voiceSeek s t) e).2 ≠ [] →
        (voiceTick (voiceSeek s t) e).2.head? =
          some (voiceSeek s t).nextCueIndex) := by
  have hspec := voiceSeekIndex_spec s.cues t hs
  have hseek : (voiceSeek s t).nextCueIndex = voiceSeekIndex s.cues t := rfl
  refine ⟨⟨by rw [hseek]; exact hspec.1, by rw [hseek]; exact hspec.2.1,
    by rw [hseek]; exact hspec.2.2⟩, rfl, ?_, ?_, ?_⟩
  · intro s' e
    exact tickCuesLoop_ge s'.cues e (s'.cues.length - s'.nextCueIndex)
      s'.nextCueIndex rfl
  · intro e j hj
    have hcues : (voiceSeek s t).cues = s.cues := rfl
    obtain ⟨i0, hi0, hj0⟩ := List.mem_range'.mp hj
    rw [hcues, hseek] at hi0
    have hjlow : voiceSeekIndex s.cues t ≤ j := by omega
    have hjhi : j < tickCuesLoop s.cues e (voiceSeekIndex s.cues t) := by omega
    have hdisp := tickCuesLoop_dispatched s.cues e
      (s.cues.length - voiceSeekIndex s.cues t)
      (voiceSeekIndex s.cues t) rfl j hjlow hjhi
    exact ⟨by rw [hseek]; exact hjlow, hdisp.1,
      hspec.2.2 j hjlow hdisp.1, hdisp.2⟩
  · intro e hne
    simp only [voiceTick] at hne ⊢
    generalize hk : tickCuesLoop (voiceSeek s t).cues e
        (voiceSeek s t).nextCueIndex - (voiceSeek s t).nextCueIndex = m at hne ⊢
    cases m with
    | zero => simp [List.range'] at hne
    | succ m => rfl

/-- A concrete three-cue list for the C9 witness. -/
def vsExample : VoiceState :=
  { cues := [⟨10, true, false, false⟩, ⟨20, true, true, false⟩,
             ⟨30, true, false, false⟩],
    nextCueIndex := 0, activePlayback := true }

/-- Witness for C9: seeking to t = 15 in the three-cue list cancels
playback, keeps the cursor in range, and every cue at or after the cursor
is at time ≥ 15. -/
theorem C9_narration_cursor_witness :
    (voiceSeek vsExample 15).activePlayback = false
    ∧ (voiceSeek vsExample 15).nextCueIndex ≤ 3
    ∧ (∀ i, (voiceSeek vsExample 15).nextCueIndex ≤ i → i < 3 →
        (15 : ℚ) ≤ (vsExample.cues.getD i dfltCue).time) := by
  have hsorted : CuesSorted vsExample.cues := by
    show List.Pairwise _ _
    norm_num [vsExample, List.pairwise_cons]
  have h := C9_narration_cursor vsExample 15 hsorted
  exact ⟨h.2.1, h.1.1, h.1.2.2⟩
